import Mathlib

/-!
Shallow embedding of the rasterization-and-statistics core of the ArborTag
backend (src/backend/app.py) together with proofs checking the repository's
natural-language specification against it.

Modelling conventions:
  - CSV numbers (lat, long, carbon_seq) are rationals; Python float
    arithmetic is modelled as exact arithmetic (rationals where the code only
    adds, subtracts, multiplies, divides and compares; reals where the code
    takes square roots, exponentials or logarithms).
  - numpy arrays indexed by integers become functions out of ℤ; the
    accumulation loop of analyze_heatmap_static, which only ever adds into
    cells, is denoted by the sum of its per-iteration contributions (real
    addition is commutative and associative, so the iteration order of the
    loop does not matter).
  - Python int() is truncation toward zero, and x or y on floats picks y
    exactly when x == 0.0; both are modelled explicitly below.
-/

set_option maxHeartbeats 1600000

namespace ArborTag

open scoped Classical BigOperators

/-- A georeferenced tree record as consumed by the analysis endpoints of
src/backend/app.py: latitude, longitude and the carbon_seq value that
analyze_heatmap_static uses as the heat weight. -/
structure Point where
  lat : ℚ
  long : ℚ
  weight : ℚ
deriving DecidableEq

/-- Python int() applied to a (finite) number: truncation toward zero. -/
def pyInt (q : ℚ) : ℤ :=
  if 0 ≤ q then ⌊q⌋ else ⌈q⌉

/-- Python x or y for float x: y exactly when x == 0.0 (falsy), else x.
Models the margin expressions (span * 0.15) or 0.001 at app.py:183-184. -/
def pyOr (x y : ℚ) : ℚ := if x = 0 then y else x

/-- Minimum of a list of rationals (pandas Series.min); the [] case never
arises in the claims, which all assume a nonempty table. -/
def listMin : List ℚ → ℚ
  | [] => 0
  | [x] => x
  | x :: y :: ys => min x (listMin (y :: ys))

/-- Maximum of a list of rationals (pandas Series.max). -/
def listMax : List ℚ → ℚ
  | [] => 0
  | [x] => x
  | x :: y :: ys => max x (listMax (y :: ys))

/-- lat_margin = (data.lat.max() - data.lat.min()) * 0.15 or 0.001 (app.py:183). -/
def lat_margin (pts : List Point) : ℚ :=
  pyOr ((listMax (pts.map Point.lat) - listMin (pts.map Point.lat)) * (15 / 100)) (1 / 1000)

/-- long_margin = (data.long.max() - data.long.min()) * 0.15 or 0.001 (app.py:184). -/
def long_margin (pts : List Point) : ℚ :=
  pyOr ((listMax (pts.map Point.long) - listMin (pts.map Point.long)) * (15 / 100)) (1 / 1000)

/-- xlim[0] = data.long.min() - long_margin (app.py:186). -/
def xlim0 (pts : List Point) : ℚ := listMin (pts.map Point.long) - long_margin pts

/-- xlim[1] = data.long.max() + long_margin (app.py:186). -/
def xlim1 (pts : List Point) : ℚ := listMax (pts.map Point.long) + long_margin pts

/-- ylim[0] = data.lat.min() - lat_margin (app.py:187). -/
def ylim0 (pts : List Point) : ℚ := listMin (pts.map Point.lat) - lat_margin pts

/-- ylim[1] = data.lat.max() + lat_margin (app.py:187). -/
def ylim1 (pts : List Point) : ℚ := listMax (pts.map Point.lat) + lat_margin pts

/-- x_spacing = (xlim[1] - xlim[0]) / grid_size (app.py:212). -/
def x_spacing (pts : List Point) (N : ℕ) : ℚ := (xlim1 pts - xlim0 pts) / N

/-- y_spacing = (ylim[1] - ylim[0]) / grid_size (app.py:213). -/
def y_spacing (pts : List Point) (N : ℕ) : ℚ := (ylim1 pts - ylim0 pts) / N

/-- xi = int((row.long - xlim[0]) / x_spacing) (app.py:217). -/
def projX (x0 xsp : ℚ) (p : Point) : ℤ := pyInt ((p.long - x0) / xsp)

/-- yi = int((row.lat - ylim[0]) / y_spacing) (app.py:218). -/
def projY (y0 ysp : ℚ) (p : Point) : ℤ := pyInt ((p.lat - y0) / ysp)

/-- dist = np.sqrt(dx*dx + dy*dy) (app.py:228), the Euclidean distance in
cell-index space between a grid cell and a point's projected cell. -/
noncomputable def cellDist (dy dx : ℤ) : ℝ := Real.sqrt ((dx : ℝ) ^ 2 + (dy : ℝ) ^ 2)

/-- Contribution of one data row to grid cell (i, j) (row index i, column
index j) in the accumulation loop of analyze_heatmap_static (app.py:216-232):
if the point's projected cell (xi, yi) lies inside the N×N grid, the inner
double loop over dx, dy in [-radius, radius] adds
(1 - dist/radius) * row.carbon_seq to heatmap_data[yi+dy, xi+dx] whenever that
target cell is inside the grid and dist = sqrt(dx^2+dy^2) <= radius.  Each
(dx, dy) iteration touches exactly one cell, so the value the loop leaves at
(i, j) is the sum below. -/
noncomputable def pointContrib (N r : ℕ) (x0 y0 xsp ysp : ℚ) (p : Point) (i j : ℤ) : ℝ :=
  if 0 ≤ projX x0 xsp p ∧ projX x0 xsp p < (N : ℤ) ∧
     0 ≤ projY y0 ysp p ∧ projY y0 ysp p < (N : ℤ) then
    ∑ dx in Finset.Icc (-(r : ℤ)) (r : ℤ), ∑ dy in Finset.Icc (-(r : ℤ)) (r : ℤ),
      if j = projX x0 xsp p + dx ∧ i = projY y0 ysp p + dy ∧
         0 ≤ j ∧ j < (N : ℤ) ∧ 0 ≤ i ∧ i < (N : ℤ) ∧ cellDist dy dx ≤ (r : ℝ) then
        (1 - cellDist dy dx / (r : ℝ)) * (p.weight : ℝ)
      else 0
  else 0

/-- heatmap_data[i, j] after the accumulation loop of analyze_heatmap_static
(app.py:209-232): the sum of every row's contribution to cell (i, j). -/
noncomputable def heatmapCell (N r : ℕ) (x0 y0 xsp ysp : ℚ) (pts : List Point) (i j : ℤ) : ℝ :=
  (pts.map fun p => pointContrib N r x0 y0 xsp ysp p i j).sum

/-- Follows the spec's words (§4.1 Density Accumulator): cell (i, j) holds the
sum over all points of weight * max(0, 1 - d/r), where d is the Euclidean
distance in cell-index space between (i, j) and the point's projected cell
floor((long - min_long)/cell_width), floor((lat - min_lat)/cell_height), and a
point whose projected cell falls outside [0, N) contributes nothing. -/
noncomputable def specDensityCell (N r : ℕ) (x0 y0 xsp ysp : ℚ) (pts : List Point)
    (i j : ℤ) : ℝ :=
  (pts.map fun p =>
    if 0 ≤ ⌊(p.long - x0) / xsp⌋ ∧ ⌊(p.long - x0) / xsp⌋ < (N : ℤ) ∧
       0 ≤ ⌊(p.lat - y0) / ysp⌋ ∧ ⌊(p.lat - y0) / ysp⌋ < (N : ℤ) then
      (p.weight : ℝ) * max 0 (1 - cellDist (i - ⌊(p.lat - y0) / ysp⌋) (j - ⌊(p.long - x0) / xsp⌋) / (r : ℝ))
    else 0).sum

/-- Sum of every cell of the accumulated N×N grid. -/
noncomputable def gridTotal (N r : ℕ) (x0 y0 xsp ysp : ℚ) (pts : List Point) : ℝ :=
  ∑ i in Finset.Ico (0 : ℤ) (N : ℤ), ∑ j in Finset.Ico (0 : ℤ) (N : ℤ),
    heatmapCell N r x0 y0 xsp ysp pts i j

/-- Number of grid cells covered by the falloff kernel of radius r: offsets
(dy, dx) in the (2r+1)×(2r+1) box at Euclidean distance at most r from the
center (dist <= r is equivalent to dy^2 + dx^2 <= r^2). -/
def kernelArea (r : ℕ) : ℕ :=
  ((Finset.Icc (-(r : ℤ)) (r : ℤ) ×ˢ Finset.Icc (-(r : ℤ)) (r : ℤ)).filter
    (fun q => q.1 ^ 2 + q.2 ^ 2 ≤ (r : ℤ) ^ 2)).card

/-- Total mass the radius-r falloff kernel spreads for a unit-weight point
whose kernel support is not clipped by the grid boundary. -/
noncomputable def kernelMass (r : ℕ) : ℝ :=
  ∑ dx in Finset.Icc (-(r : ℤ)) (r : ℤ), ∑ dy in Finset.Icc (-(r : ℤ)) (r : ℤ),
    max 0 (1 - cellDist dy dx / (r : ℝ))

/-- Total the accumulation loop adds over the whole N×N grid for one point. -/
noncomputable def pointTotal (N r : ℕ) (x0 y0 xsp ysp : ℚ) (p : Point) : ℝ :=
  ∑ i in Finset.Ico (0 : ℤ) (N : ℤ), ∑ j in Finset.Ico (0 : ℤ) (N : ℤ),
    pointContrib N r x0 y0 xsp ysp p i j

/-- A unit-weight point projecting to the center of a 5×5 grid, whose radius-2
kernel support is entirely inside the grid (no clipping losses). -/
def ptC3 : Point := ⟨5 / 2, 5 / 2, 1⟩

/-- A point half a cell left of the box minimum: int() truncates -0.5 to cell 0
while floor sends it to cell -1. -/
def ptC1 : Point := ⟨1 / 2, -1 / 2, 1⟩

/-- A well-behaved point inside the box (witness configurations). -/
def ptC1w : Point := ⟨1 / 2, 1 / 2, 2⟩

/-- A point with negative carbon_seq weight, projecting to cell (0, 0). -/
def ptC4 : Point := ⟨1 / 2, 1 / 2, -1⟩

/-- heatmap_smooth.max() (app.py:239): the maximum over every cell of a
nonempty (n+1)×(n+1) grid. -/
noncomputable def gridMax (n : ℕ) (g : Fin (n + 1) → Fin (n + 1) → ℝ) : ℝ :=
  Finset.univ.sup' Finset.univ_nonempty
    (fun q : Fin (n + 1) × Fin (n + 1) => g q.1 q.2)

/-- app.py:239-240: if heatmap_smooth.max() > 0 the whole grid is divided by
the maximum, otherwise it is left untouched. -/
noncomputable def normalizeSmoothed (n : ℕ) (g : Fin (n + 1) → Fin (n + 1) → ℝ) :
    Fin (n + 1) → Fin (n + 1) → ℝ :=
  if 0 < gridMax n g then fun i j => g i j / gridMax n g else g

/-- app.py:243: np.ma.masked_where(heatmap_smooth < 0.05, heatmap_smooth): a
cell is masked exactly when its (normalized) value is below 0.05; the numeric
data is retained alongside the boolean mask. -/
noncomputable def maskedCells (n : ℕ) (g : Fin (n + 1) → Fin (n + 1) → ℝ) :
    Fin (n + 1) → Fin (n + 1) → Prop :=
  fun i j => normalizeSmoothed n g i j < 5 / 100

/-- Modelled on scipy.ndimage.gaussian_filter (called at app.py:236 with
sigma = 8): the unnormalized 1D kernel weight exp(-t^2 / (2 sigma^2)); scipy
normalizes by the sum of the truncated weights, which gaussZ provides. -/
noncomputable def gaussKernel (sigma : ℚ) (t : ℤ) : ℝ :=
  Real.exp (-((t : ℝ) ^ 2) / (2 * (sigma : ℝ) ^ 2))

/-- Normalization constant of the truncated 1D Gaussian kernel of radius R. -/
noncomputable def gaussZ (sigma : ℚ) (R : ℕ) : ℝ :=
  ∑ t in Finset.Icc (-(R : ℤ)) (R : ℤ), gaussKernel sigma t

/-- scipy's default boundary mode 'reflect' (d c b a | a b c d): half-sample
mirror reflection of an index into an axis of length n, period 2n. -/
def reflectIndex (n : ℕ) (k : ℤ) : ℤ :=
  let m := k % (2 * (n : ℤ))
  if m < (n : ℤ) then m else 2 * (n : ℤ) - 1 - m

/-- Clamp-to-edge indexing (scipy mode 'nearest', a a a a | a b c d): what
the spec asserts the smoothing filter uses at its boundaries. -/
def nearestIndex (n : ℕ) (k : ℤ) : ℤ := max 0 (min ((n : ℤ) - 1) k)

/-- One 1D correlation pass along axis 0 (row index), radius-R truncated
normalized Gaussian, boundary handled by the given index map. -/
noncomputable def filterAxis0 (sigma : ℚ) (R rows : ℕ) (index : ℕ → ℤ → ℤ)
    (g : ℤ → ℤ → ℝ) : ℤ → ℤ → ℝ :=
  fun i j => (∑ t in Finset.Icc (-(R : ℤ)) (R : ℤ),
    gaussKernel sigma t * g (index rows (i + t)) j) / gaussZ sigma R

/-- The same pass along axis 1 (column index). -/
noncomputable def filterAxis1 (sigma : ℚ) (R cols : ℕ) (index : ℕ → ℤ → ℤ)
    (g : ℤ → ℤ → ℝ) : ℤ → ℤ → ℝ :=
  fun i j => (∑ t in Finset.Icc (-(R : ℤ)) (R : ℤ),
    gaussKernel sigma t * g i (index cols (j + t))) / gaussZ sigma R

/-- Separable 2D blur: the axis-0 pass followed by the axis-1 pass, as
scipy.ndimage.gaussian_filter applies its 1D filter per axis in sequence. -/
noncomputable def separableBlur (sigma : ℚ) (R rows cols : ℕ) (index : ℕ → ℤ → ℤ)
    (g : ℤ → ℤ → ℝ) : ℤ → ℤ → ℝ :=
  filterAxis1 sigma R cols index (filterAxis0 sigma R rows index g)

/-- gaussian_filter(heatmap_data, sigma=sigma) with sigma = 8 (app.py:235-236):
scipy's truncate default 4.0 gives kernel radius int(4.0*8 + 0.5) = 32, one
normalized 1D pass per axis, and the default boundary mode 'reflect'.  The
rows×cols dimensions are carried as parameters; the output is a grid over the
same index range by construction. -/
noncomputable def gaussian_filter (rows cols : ℕ) (g : ℤ → ℤ → ℝ) : ℤ → ℤ → ℝ :=
  separableBlur 8 32 rows cols reflectIndex g

/-- Follows the spec's words (§4.2 Smoothing Filter): the same separable
fixed-sigma Gaussian blur but with clamp-to-edge (extend edge values)
boundary handling. -/
noncomputable def specClampBlur (rows cols : ℕ) (g : ℤ → ℤ → ℝ) : ℤ → ℤ → ℝ :=
  separableBlur 8 32 rows cols nearestIndex g

/-- A 1×2 grid holding [1, 0]: the smallest grid on which reflect and
clamp-to-edge boundary handling disagree. -/
noncomputable def gC6 : ℤ → ℤ → ℝ := fun i j => if i = 0 ∧ j = 0 then 1 else 0

/-- Modelled from the spec: the Diversity Calculator of spec §4.5 is absent
from src/ (the diversity endpoints only draw maps), so the Shannon index is
taken from the spec's words: H = -Σ p_i * ln(p_i), natural log, with
p_i = count_i / total over the category counts. -/
noncomputable def shannonIndex (counts : List (String × ℕ)) : ℝ :=
  -((counts.map fun c =>
      ((c.2 : ℝ) / (((counts.map Prod.snd).sum : ℕ) : ℝ)) *
        Real.log ((c.2 : ℝ) / (((counts.map Prod.snd).sum : ℕ) : ℝ))).sum)

/-- Modelled from the spec: Simpson index D = 1 - Σ p_i² (spec §4.5), the
Diversity Calculator being absent from src/. -/
noncomputable def simpsonIndex (counts : List (String × ℕ)) : ℝ :=
  1 - (counts.map fun c =>
      ((c.2 : ℝ) / (((counts.map Prod.snd).sum : ℕ) : ℝ)) ^ 2).sum

/-- k equally abundant categories of m individuals each. -/
def equalCounts (k m : ℕ) : List (String × ℕ) :=
  (List.range k).map fun i => (toString i, m)

/-- np.clip(x, lo, hi). -/
def npClip (x lo hi : ℚ) : ℚ := min hi (max lo x)

/-- Modelled on matplotlib.colors.rgb_to_hsv (the call at app.py:37): value is
the channel maximum; saturation is delta/max where delta is the channel range
(0 saturation for black); the hue sector comes from the maximal channel, later
mask assignments winning ties (blue over green over red), and the hue is
wrapped into [0,1) by (h0/6) % 1.0 - Python float % 1.0 is x - floor(x). -/
def rgb_to_hsv (r g b : ℚ) : ℚ × ℚ × ℚ :=
  let mx := max r (max g b)
  let mn := min r (min g b)
  let delta := mx - mn
  let s := if 0 < mx then delta / mx else 0
  let h0 := if 0 < delta then
      (if b = mx then 4 + (r - g) / delta
       else if g = mx then 2 + (b - r) / delta
       else (g - b) / delta)
    else 0
  (h0 / 6 - (⌊h0 / 6⌋ : ℚ), s, mx)

/-- Modelled on matplotlib.colors.hsv_to_rgb (the call at app.py:46):
i = int(h*6), f the fractional remainder, p, q, t the shaded components, one
sector mask per i value with the s == 0 mask applied last (grey wins). -/
def hsv_to_rgb (h s v : ℚ) : ℚ × ℚ × ℚ :=
  let i := pyInt (h * 6)
  let f := h * 6 - (i : ℚ)
  let p := v * (1 - s)
  let q := v * (1 - s * f)
  let t := v * (1 - s * (1 - f))
  if s = 0 then (v, v, v)
  else if i = 1 then (q, v, p)
  else if i = 2 then (p, v, t)
  else if i = 3 then (p, q, v)
  else if i = 4 then (t, p, v)
  else if i = 5 then (v, p, q)
  else if i % 6 = 0 then (v, t, p)
  else (0, 0, 0)

/-- adjust_color_brightness_saturation (app.py:31-47): convert the RGB part to
HSV, scale the V channel by the brightness factor and the S channel by the
saturation factor, clip each to [0,1], convert back to RGB and reattach the
original alpha channel. -/
def adjust_color_brightness_saturation (rgba : ℚ × ℚ × ℚ × ℚ)
    (brightness_factor saturation_factor : ℚ) : ℚ × ℚ × ℚ × ℚ :=
  let hsv := rgb_to_hsv rgba.1 rgba.2.1 rgba.2.2.1
  let v2 := npClip (hsv.2.2 * brightness_factor) 0 1
  let s2 := npClip (hsv.2.1 * saturation_factor) 0 1
  let rgb := hsv_to_rgb hsv.1 s2 v2
  (rgb.1, rgb.2.1, rgb.2.2, rgba.2.2.2)

/-- Opaque white, in the [0,1] float RGBA convention of matplotlib. -/
def whiteRGBA : ℚ × ℚ × ℚ × ℚ := (1, 1, 1, 1)

/-- os.path.join(TEMP_DIR, 'Distribution.png') (app.py:108): the output path
of analyze_distribution as a function of the shared module-level TEMP_DIR and
of the request's parsed CSV data - on which it does not depend. -/
def distribution_output_path (tempDir : String) (_reqData : List Point) : String :=
  tempDir ++ "/Distribution.png"

/-- os.path.join(TEMP_DIR, 'carbon_heatmap_static.png') (app.py:300). -/
def heatmap_static_output_path (tempDir : String) (_reqData : List Point) : String :=
  tempDir ++ "/carbon_heatmap_static.png"

/-- os.path.join(TEMP_DIR, 'diversity_static.png') (app.py:453). -/
def diversity_static_output_path (tempDir : String) (_reqData : List Point) : String :=
  tempDir ++ "/diversity_static.png"

/-- A concrete temporary-directory path standing for the one mkdtemp result
shared by every request of the process. -/
def tmpBase : String := "/tmp/arbortag"

/-- matplotlib.colors.TABLEAU_COLORS values, in order. -/
def TABLEAU_COLORS : List String :=
  ["#1f77b4", "#ff7f0e", "#2ca02c", "#d62728", "#9467bd",
   "#8c564b", "#e377c2", "#7f7f7f", "#bcbd22", "#17becf"]

/-- create_colormap (app.py:314-319): each value of the (duplicate-free) list
gets colors[i % color_count] where i is its position in the list. -/
def create_colormap (uniqueValues : List String) (v : String) : String :=
  TABLEAU_COLORS.getD (uniqueValues.indexOf v % TABLEAU_COLORS.length) ""

/-- pandas Series.unique(): the labels in first-seen order (app.py:353). -/
def uniqueFirstSeen (l : List String) : List String :=
  l.foldl (fun acc x => if x ∈ acc then acc else acc ++ [x]) []

/-- Insertion step of an insertion sort by the String order; Python sorted is
a comparison sort and on duplicate-free lists every comparison sort agrees. -/
def insertSorted (x : String) : List String → List String
  | [] => [x]
  | y :: ys => if (compare x y).isLE then x :: y :: ys else y :: insertSorted x ys

/-- sorted(data.scientific_name.unique()) (app.py:389). -/
def sortedUniqueNames (l : List String) : List String :=
  (uniqueFirstSeen l).foldr insertSorted []

def nameA : String := "A"

def nameB : String := "B"

/-- A dataset whose first-seen category order (B before A) is not sorted. -/
def dataBA : List String := [nameB, nameA]

/-- A dataset whose first-seen category order is already sorted. -/
def dataAB : List String := [nameA, nameB]

/-! ## Helper lemmas about the accumulation loop -/

theorem pyInt_eq_floor {q : ℚ} (h : 0 ≤ q) : pyInt q = ⌊q⌋ := if_pos h

theorem cellDist_nonneg (dy dx : ℤ) : 0 ≤ cellDist dy dx := Real.sqrt_nonneg _

/-- Chebyshev distance is bounded by the Euclidean cell distance: if the
Euclidean offset is within r, so is each coordinate offset. -/
theorem cellDist_abs_le {dy dx : ℤ} {r : ℕ} (h : cellDist dy dx ≤ (r : ℝ)) :
    -(r : ℤ) ≤ dx ∧ dx ≤ (r : ℤ) ∧ -(r : ℤ) ≤ dy ∧ dy ≤ (r : ℤ) := by
  have hx : |(dx : ℝ)| ≤ (r : ℝ) := by
    have h1 : Real.sqrt ((dx : ℝ) ^ 2) ≤ cellDist dy dx :=
      Real.sqrt_le_sqrt (by nlinarith [sq_nonneg ((dy : ℝ))])
    rw [Real.sqrt_sq_eq_abs] at h1
    exact h1.trans h
  have hy : |(dy : ℝ)| ≤ (r : ℝ) := by
    have h1 : Real.sqrt ((dy : ℝ) ^ 2) ≤ cellDist dy dx :=
      Real.sqrt_le_sqrt (by nlinarith [sq_nonneg ((dx : ℝ))])
    rw [Real.sqrt_sq_eq_abs] at h1
    exact h1.trans h
  rw [abs_le] at hx hy
  obtain ⟨hx1, hx2⟩ := hx
  obtain ⟨hy1, hy2⟩ := hy
  refine ⟨?_, ?_, ?_, ?_⟩
  · exact_mod_cast hx1
  · exact_mod_cast hx2
  · exact_mod_cast hy1
  · exact_mod_cast hy2

/-- Closed form of one point's contribution to an in-grid cell (i, j): the
double loop over kernel offsets leaves weight * max(0, 1 - dist/r) there when
the point projects inside the grid, and nothing otherwise. -/
theorem pointContrib_eq (N r : ℕ) (x0 y0 xsp ysp : ℚ) (p : Point) (i j : ℤ)
    (hr : 0 < r) (hi0 : 0 ≤ i) (hiN : i < (N : ℤ)) (hj0 : 0 ≤ j) (hjN : j < (N : ℤ)) :
    pointContrib N r x0 y0 xsp ysp p i j =
      if 0 ≤ projX x0 xsp p ∧ projX x0 xsp p < (N : ℤ) ∧
         0 ≤ projY y0 ysp p ∧ projY y0 ysp p < (N : ℤ) then
        (p.weight : ℝ) *
          max 0 (1 - cellDist (i - projY y0 ysp p) (j - projX x0 xsp p) / (r : ℝ))
      else 0 := by
  have hrR : (0 : ℝ) < (r : ℝ) := by exact_mod_cast hr
  unfold pointContrib
  by_cases hin : 0 ≤ projX x0 xsp p ∧ projX x0 xsp p < (N : ℤ) ∧
      0 ≤ projY y0 ysp p ∧ projY y0 ysp p < (N : ℤ)
  · rw [if_pos hin, if_pos hin]
    set xi := projX x0 xsp p with hxi
    set yi := projY y0 ysp p with hyi
    have h1 : ∀ dx dy : ℤ,
        (j = xi + dx ∧ i = yi + dy ∧ 0 ≤ j ∧ j < (N : ℤ) ∧ 0 ≤ i ∧ i < (N : ℤ) ∧
          cellDist dy dx ≤ (r : ℝ))
        ↔ (dx = j - xi ∧ dy = i - yi ∧ cellDist dy dx ≤ (r : ℝ)) := by
      intro dx dy
      constructor
      · rintro ⟨ha, hb, -, -, -, -, hd⟩
        exact ⟨by omega, by omega, hd⟩
      · rintro ⟨ha, hb, hd⟩
        exact ⟨by omega, by omega, hj0, hjN, hi0, hiN, hd⟩
    simp_rw [h1]
    have h2 : ∀ dx dy : ℤ,
        (if dx = j - xi ∧ dy = i - yi ∧ cellDist dy dx ≤ (r : ℝ) then
          (1 - cellDist dy dx / (r : ℝ)) * (p.weight : ℝ) else 0)
        = (if dx = j - xi then
            (if dy = i - yi then
              (if cellDist dy dx ≤ (r : ℝ) then
                (1 - cellDist dy dx / (r : ℝ)) * (p.weight : ℝ) else 0)
              else 0)
            else 0) := by
      intro dx dy
      split_ifs <;> tauto
    simp_rw [h2]
    have h3 : ∀ dx : ℤ,
        (∑ dy in Finset.Icc (-(r : ℤ)) (r : ℤ),
          if dx = j - xi then
            (if dy = i - yi then
              (if cellDist dy dx ≤ (r : ℝ) then
                (1 - cellDist dy dx / (r : ℝ)) * (p.weight : ℝ) else 0)
              else 0)
            else 0)
        = (if dx = j - xi then
            (if (i - yi) ∈ Finset.Icc (-(r : ℤ)) (r : ℤ) then
              (if cellDist (i - yi) dx ≤ (r : ℝ) then
                (1 - cellDist (i - yi) dx / (r : ℝ)) * (p.weight : ℝ) else 0)
              else 0)
            else 0) := by
      intro dx
      by_cases hdx : dx = j - xi
      · simp only [if_pos hdx]
        exact Finset.sum_ite_eq' _ _ _
      · simp only [if_neg hdx, Finset.sum_const_zero]
    simp_rw [h3]
    rw [Finset.sum_ite_eq' _ _ _]
    by_cases hle : cellDist (i - yi) (j - xi) ≤ (r : ℝ)
    · obtain ⟨ha1, ha2, hb1, hb2⟩ := cellDist_abs_le hle
      rw [if_pos (Finset.mem_Icc.mpr ⟨ha1, ha2⟩), if_pos (Finset.mem_Icc.mpr ⟨hb1, hb2⟩),
        if_pos hle]
      have hmax : max 0 (1 - cellDist (i - yi) (j - xi) / (r : ℝ))
          = 1 - cellDist (i - yi) (j - xi) / (r : ℝ) := by
        apply max_eq_right
        have hdiv : cellDist (i - yi) (j - xi) / (r : ℝ) ≤ 1 := (div_le_one hrR).mpr hle
        linarith
      rw [hmax]
      ring
    · have hmax : max 0 (1 - cellDist (i - yi) (j - xi) / (r : ℝ)) = 0 := by
        apply max_eq_left
        push_neg at hle
        have hdiv : 1 < cellDist (i - yi) (j - xi) / (r : ℝ) := (one_lt_div hrR).mpr hle
        linarith
      rw [hmax, mul_zero]
      split_ifs <;> rfl
  · rw [if_neg hin, if_neg hin]

theorem heatmapCell_nil (N r : ℕ) (x0 y0 xsp ysp : ℚ) (i j : ℤ) :
    heatmapCell N r x0 y0 xsp ysp [] i j = 0 := by
  simp [heatmapCell]

theorem heatmapCell_cons (N r : ℕ) (x0 y0 xsp ysp : ℚ) (p : Point) (pts : List Point)
    (i j : ℤ) :
    heatmapCell N r x0 y0 xsp ysp (p :: pts) i j =
      pointContrib N r x0 y0 xsp ysp p i j + heatmapCell N r x0 y0 xsp ysp pts i j := by
  simp [heatmapCell]

/-- Closed form of a whole in-grid cell: the accumulation loop leaves at (i, j)
the sum over points of weight * max(0, 1 - dist/r), in-grid points only. -/
theorem heatmapCell_eq (N r : ℕ) (x0 y0 xsp ysp : ℚ) (pts : List Point) (i j : ℤ)
    (hr : 0 < r) (hi0 : 0 ≤ i) (hiN : i < (N : ℤ)) (hj0 : 0 ≤ j) (hjN : j < (N : ℤ)) :
    heatmapCell N r x0 y0 xsp ysp pts i j =
      (pts.map fun p =>
        if 0 ≤ projX x0 xsp p ∧ projX x0 xsp p < (N : ℤ) ∧
           0 ≤ projY y0 ysp p ∧ projY y0 ysp p < (N : ℤ) then
          (p.weight : ℝ) *
            max 0 (1 - cellDist (i - projY y0 ysp p) (j - projX x0 xsp p) / (r : ℝ))
        else 0).sum := by
  induction pts with
  | nil => simp [heatmapCell]
  | cons p ps ih =>
    rw [heatmapCell_cons, ih, List.map_cons, List.sum_cons,
      pointContrib_eq N r x0 y0 xsp ysp p i j hr hi0 hiN hj0 hjN]

/-! ## Claim C1: accumulated grid versus the spec's density formula -/

/-- Claim C1 (counterexample): the claim quantifies over every bounding box and
point set and describes the projected cell with floor; the code projects with
Python int(), which truncates toward zero.  For the box with min corner (0, 0),
unit cell spacing, N = 3, r = 1 and the single unit-weight point at
long = -1/2, lat = 1/2, the code projects the point to cell (0, 0) and leaves
1 there, while the spec formula floors the point to column -1 and drops it,
leaving 0. -/
theorem densityCell_floor_claim_false :
    heatmapCell 3 1 0 0 1 1 [ptC1] 0 0 ≠ specDensityCell 3 1 0 0 1 1 [ptC1] 0 0 := by
  have hx : projX 0 1 ptC1 = 0 := by norm_num [projX, pyInt, ptC1]
  have hy : projY 0 1 ptC1 = 0 := by norm_num [projY, pyInt, ptC1]
  have hL : heatmapCell 3 1 0 0 1 1 [ptC1] 0 0 = 1 := by
    rw [heatmapCell_eq 3 1 0 0 1 1 [ptC1] 0 0 (by norm_num) (by norm_num) (by norm_num)
      (by norm_num) (by norm_num)]
    simp only [List.map_cons, List.map_nil, List.sum_cons, List.sum_nil, hx, hy]
    norm_num [ptC1, cellDist, Real.sqrt_zero]
  have hR : specDensityCell 3 1 0 0 1 1 [ptC1] 0 0 = 0 := by
    unfold specDensityCell
    simp only [List.map_cons, List.map_nil, List.sum_cons, List.sum_nil]
    norm_num [ptC1]
  rw [hL, hR]
  norm_num

/-- Claim C1 (amended): the accumulator produces the spec's grid - cell (i, j)
equal to the sum over all points of weight * max(0, 1 - d/r) with
floor-projected cells and out-of-grid points dropped - whenever every point
lies at coordinates at least the box minimum (there Python int() truncation
coincides with floor); in analyze_heatmap_static the box is derived from the
data with a positive margin, so this hypothesis always holds there. -/
theorem densityCell_matches_spec (N r : ℕ) (x0 y0 xsp ysp : ℚ) (pts : List Point)
    (i j : ℤ) (hr : 0 < r) (hxsp : 0 < xsp) (hysp : 0 < ysp)
    (hbox : ∀ p ∈ pts, x0 ≤ p.long ∧ y0 ≤ p.lat)
    (hi0 : 0 ≤ i) (hiN : i < (N : ℤ)) (hj0 : 0 ≤ j) (hjN : j < (N : ℤ)) :
    heatmapCell N r x0 y0 xsp ysp pts i j = specDensityCell N r x0 y0 xsp ysp pts i j := by
  rw [heatmapCell_eq N r x0 y0 xsp ysp pts i j hr hi0 hiN hj0 hjN]
  unfold specDensityCell
  congr 1
  apply List.map_congr_left
  intro p hp
  have hfx : projX x0 xsp p = ⌊(p.long - x0) / xsp⌋ :=
    pyInt_eq_floor (div_nonneg (sub_nonneg.mpr (hbox p hp).1) hxsp.le)
  have hfy : projY y0 ysp p = ⌊(p.lat - y0) / ysp⌋ :=
    pyInt_eq_floor (div_nonneg (sub_nonneg.mpr (hbox p hp).2) hysp.le)
  rw [hfx, hfy]

/-- Claim C1 witness: the amended theorem applied to a concrete in-box
configuration. -/
theorem densityCell_matches_spec_witness :
    heatmapCell 3 1 0 0 1 1 [ptC1w] 0 0 = specDensityCell 3 1 0 0 1 1 [ptC1w] 0 0 :=
  densityCell_matches_spec 3 1 0 0 1 1 [ptC1w] 0 0 (by norm_num) (by norm_num) (by norm_num)
    (by intro p hp
        rw [List.mem_singleton] at hp
        subst hp
        exact ⟨by norm_num [ptC1w], by norm_num [ptC1w]⟩)
    (by norm_num) (by norm_num) (by norm_num) (by norm_num)

/-! ## Claim C4: negative weights are not clamped -/

/-- Claim C4 (counterexample): a point whose weight is negative is NOT treated
as zero weight: the single point with carbon_seq = -1 projecting to cell (0, 0)
leaves -1 in that cell, not 0, so the negative weight does contribute and NaN
clamping code does not exist. -/
theorem negative_weight_not_clamped :
    heatmapCell 1 1 0 0 1 1 [ptC4] 0 0 = -1 ∧ ((-1 : ℝ) ≠ 0) := by
  constructor
  · have hx : projX 0 1 ptC4 = 0 := by norm_num [projX, pyInt, ptC4]
    have hy : projY 0 1 ptC4 = 0 := by norm_num [projY, pyInt, ptC4]
    rw [heatmapCell_eq 1 1 0 0 1 1 [ptC4] 0 0 (by norm_num) (by norm_num) (by norm_num)
      (by norm_num) (by norm_num)]
    simp only [List.map_cons, List.map_nil, List.sum_cons, List.sum_nil, hx, hy]
    norm_num [ptC4, cellDist, Real.sqrt_zero]
  · norm_num

/-- Claim C4 (amended): the accumulator uses weights as they come: appending a
point whose projected cell lies in the grid adds exactly its weight to that
cell - in particular a negative weight decreases the cell - and no clamping to
zero happens anywhere; no error is surfaced (the loop is total). -/
theorem negative_weight_passes_through (N r : ℕ) (x0 y0 xsp ysp : ℚ)
    (pts : List Point) (p : Point) (hr : 0 < r)
    (hin : 0 ≤ projX x0 xsp p ∧ projX x0 xsp p < (N : ℤ) ∧
           0 ≤ projY y0 ysp p ∧ projY y0 ysp p < (N : ℤ))
    (hneg : p.weight < 0) :
    heatmapCell N r x0 y0 xsp ysp (pts ++ [p]) (projY y0 ysp p) (projX x0 xsp p)
      = heatmapCell N r x0 y0 xsp ysp pts (projY y0 ysp p) (projX x0 xsp p)
        + (p.weight : ℝ) ∧
    ((p.weight : ℚ) : ℝ) < 0 := by
  constructor
  · unfold heatmapCell
    rw [List.map_append, List.sum_append]
    simp only [List.map_cons, List.map_nil, List.sum_cons, List.sum_nil, add_zero]
    congr 1
    rw [pointContrib_eq N r x0 y0 xsp ysp p _ _ hr hin.2.2.1 hin.2.2.2 hin.1 hin.2.1]
    rw [if_pos hin]
    norm_num [cellDist, Real.sqrt_zero]
  · exact_mod_cast hneg

/-- Claim C4 witness: the amended theorem at the concrete negative-weight
point. -/
theorem negative_weight_passes_through_witness :
    heatmapCell 1 1 0 0 1 1 ([] ++ [ptC4]) (projY 0 1 ptC4) (projX 0 1 ptC4)
      = heatmapCell 1 1 0 0 1 1 [] (projY 0 1 ptC4) (projX 0 1 ptC4)
        + (ptC4.weight : ℝ) ∧
    ((ptC4.weight : ℚ) : ℝ) < 0 :=
  negative_weight_passes_through 1 1 0 0 1 1 [] ptC4 (by norm_num)
    (by refine ⟨?_, ?_, ?_, ?_⟩ <;> norm_num [projX, projY, pyInt, ptC4])
    (by norm_num [ptC4])

/-! ## Claim C5: degenerate bounding box -/

theorem listMin_const {l : List ℚ} {a : ℚ} (hne : l ≠ []) (h : ∀ x ∈ l, x = a) :
    listMin l = a := by
  induction l with
  | nil => exact absurd rfl hne
  | cons x xs ih =>
    cases xs with
    | nil => simpa using h x (by simp)
    | cons y ys =>
      have hx : x = a := h x (by simp)
      have htail : listMin (y :: ys) = a :=
        ih (by simp) (fun z hz => h z (List.mem_cons_of_mem x hz))
      rw [listMin, hx, htail, min_self]

theorem listMax_const {l : List ℚ} {a : ℚ} (hne : l ≠ []) (h : ∀ x ∈ l, x = a) :
    listMax l = a := by
  induction l with
  | nil => exact absurd rfl hne
  | cons x xs ih =>
    cases xs with
    | nil => simpa using h x (by simp)
    | cons y ys =>
      have hx : x = a := h x (by simp)
      have htail : listMax (y :: ys) = a :=
        ih (by simp) (fun z hz => h z (List.mem_cons_of_mem x hz))
      rw [listMax, hx, htail, max_self]

theorem listSumCast (pts : List Point) :
    (pts.map fun p => ((p.weight : ℚ) : ℝ)).sum = (((pts.map Point.weight).sum : ℚ) : ℝ) := by
  induction pts with
  | nil => simp
  | cons p ps ih => simp [ih]

theorem listSumMulLeft (c : ℝ) (pts : List Point) (f : Point → ℝ) :
    (pts.map fun p => c * f p).sum = c * (pts.map f).sum := by
  induction pts with
  | nil => simp
  | cons p ps ih => simp [ih, mul_add]

theorem listSumLe (pts : List Point) (f g : Point → ℝ) (h : ∀ p ∈ pts, f p ≤ g p) :
    (pts.map f).sum ≤ (pts.map g).sum := by
  induction pts with
  | nil => simp
  | cons p ps ih =>
    simp only [List.map_cons, List.sum_cons]
    have h1 := h p (by simp)
    have h2 := ih (fun q hq => h q (by simp [hq]))
    linarith

/-- Claim C5: when every point has the same location, the margin expressions
(span * 0.15) or 0.001 substitute the epsilon margin 0.001 for the zero span,
both grid spacings are positive (no division by zero in the projection), every
point projects to the center cell (250, 250) of the 500x500 grid, and the
accumulated grid attains its strict maximum at that single hot cell. -/
theorem degenerate_bounds_single_hot_cell (pts : List Point) (c : Point)
    (hne : pts ≠ []) (hsame : ∀ p ∈ pts, p.lat = c.lat ∧ p.long = c.long)
    (hw : ∀ p ∈ pts, 0 ≤ p.weight) (hpos : 0 < (pts.map Point.weight).sum) :
    lat_margin pts = 1 / 1000 ∧ long_margin pts = 1 / 1000 ∧
    0 < x_spacing pts 500 ∧ 0 < y_spacing pts 500 ∧
    (∀ p ∈ pts, projX (xlim0 pts) (x_spacing pts 500) p = 250 ∧
                projY (ylim0 pts) (y_spacing pts 500) p = 250) ∧
    (∀ i j : ℤ, 0 ≤ i → i < 500 → 0 ≤ j → j < 500 → ¬(i = 250 ∧ j = 250) →
      heatmapCell 500 20 (xlim0 pts) (ylim0 pts) (x_spacing pts 500) (y_spacing pts 500)
          pts i j
        < heatmapCell 500 20 (xlim0 pts) (ylim0 pts) (x_spacing pts 500) (y_spacing pts 500)
            pts 250 250) := by
  have hmapLatNe : pts.map Point.lat ≠ [] := by
    simpa using hne
  have hmapLongNe : pts.map Point.long ≠ [] := by
    simpa using hne
  have hminLat : listMin (pts.map Point.lat) = c.lat := by
    apply listMin_const hmapLatNe
    intro x hx
    obtain ⟨p, hp, rfl⟩ := List.mem_map.mp hx
    exact (hsame p hp).1
  have hmaxLat : listMax (pts.map Point.lat) = c.lat := by
    apply listMax_const hmapLatNe
    intro x hx
    obtain ⟨p, hp, rfl⟩ := List.mem_map.mp hx
    exact (hsame p hp).1
  have hminLong : listMin (pts.map Point.long) = c.long := by
    apply listMin_const hmapLongNe
    intro x hx
    obtain ⟨p, hp, rfl⟩ := List.mem_map.mp hx
    exact (hsame p hp).2
  have hmaxLong : listMax (pts.map Point.long) = c.long := by
    apply listMax_const hmapLongNe
    intro x hx
    obtain ⟨p, hp, rfl⟩ := List.mem_map.mp hx
    exact (hsame p hp).2
  have hlatm : lat_margin pts = 1 / 1000 := by
    rw [lat_margin, hminLat, hmaxLat]
    norm_num [pyOr]
  have hlongm : long_margin pts = 1 / 1000 := by
    rw [long_margin, hminLong, hmaxLong]
    norm_num [pyOr]
  have hx0 : xlim0 pts = c.long - 1 / 1000 := by
    rw [xlim0, hminLong, hlongm]
  have hx1 : xlim1 pts = c.long + 1 / 1000 := by
    rw [xlim1, hmaxLong, hlongm]
  have hy0 : ylim0 pts = c.lat - 1 / 1000 := by
    rw [ylim0, hminLat, hlatm]
  have hy1 : ylim1 pts = c.lat + 1 / 1000 := by
    rw [ylim1, hmaxLat, hlatm]
  have hxsp : x_spacing pts 500 = 1 / 250000 := by
    rw [x_spacing, hx0, hx1]
    ring
  have hysp : y_spacing pts 500 = 1 / 250000 := by
    rw [y_spacing, hy0, hy1]
    ring
  have hprojX : ∀ p ∈ pts, projX (xlim0 pts) (x_spacing pts 500) p = 250 := by
    intro p hp
    rw [projX, hx0, hxsp, (hsame p hp).2]
    norm_num [pyInt]
  have hprojY : ∀ p ∈ pts, projY (ylim0 pts) (y_spacing pts 500) p = 250 := by
    intro p hp
    rw [projY, hy0, hysp, (hsame p hp).1]
    norm_num [pyInt]
  have hS : (0 : ℝ) < (pts.map fun p => ((p.weight : ℚ) : ℝ)).sum := by
    rw [listSumCast]
    exact_mod_cast hpos
  have hcenter : heatmapCell 500 20 (xlim0 pts) (ylim0 pts) (x_spacing pts 500)
      (y_spacing pts 500) pts 250 250 = (pts.map fun p => ((p.weight : ℚ) : ℝ)).sum := by
    rw [heatmapCell_eq 500 20 _ _ _ _ pts 250 250 (by norm_num) (by norm_num) (by norm_num)
      (by norm_num) (by norm_num)]
    congr 1
    apply List.map_congr_left
    intro p hp
    rw [hprojX p hp, hprojY p hp, if_pos (by norm_num)]
    have hd : cellDist (250 - 250) (250 - 250) = 0 := by
      norm_num [cellDist]
    rw [hd]
    norm_num
  refine ⟨hlatm, hlongm, by rw [hxsp]; norm_num, by rw [hysp]; norm_num,
    fun p hp => ⟨hprojX p hp, hprojY p hp⟩, ?_⟩
  intro i j hi0 hi5 hj0 hj5 hnotc
  have hbound : heatmapCell 500 20 (xlim0 pts) (ylim0 pts) (x_spacing pts 500)
      (y_spacing pts 500) pts i j
      ≤ (19 / 20 : ℝ) * (pts.map fun p => ((p.weight : ℚ) : ℝ)).sum := by
    rw [heatmapCell_eq 500 20 _ _ _ _ pts i j (by norm_num) hi0 hi5 hj0 hj5]
    rw [← listSumMulLeft]
    apply listSumLe
    intro p hp
    rw [hprojX p hp, hprojY p hp, if_pos (by norm_num)]
    have hwp : (0 : ℝ) ≤ (p.weight : ℝ) := by exact_mod_cast hw p hp
    have hD : (1 : ℝ) ≤ cellDist (i - 250) (j - 250) := by
      have hsq : (1 : ℤ) ≤ (j - 250) ^ 2 + (i - 250) ^ 2 := by
        rcases not_and_or.mp hnotc with hi | hj
        · have habs : 1 ≤ |i - 250| := Int.one_le_abs (by omega)
          nlinarith [sq_nonneg (j - 250), sq_abs (i - 250)]
        · have habs : 1 ≤ |j - 250| := Int.one_le_abs (by omega)
          nlinarith [sq_nonneg (i - 250), sq_abs (j - 250)]
      have hsqR : (1 : ℝ) ≤ ((j - 250 : ℤ) : ℝ) ^ 2 + ((i - 250 : ℤ) : ℝ) ^ 2 := by
        exact_mod_cast hsq
      calc (1 : ℝ) = Real.sqrt 1 := Real.sqrt_one.symm
        _ ≤ _ := Real.sqrt_le_sqrt hsqR
    have hmaxle : max 0 (1 - cellDist (i - 250) (j - 250) / (20 : ℝ)) ≤ 19 / 20 := by
      apply max_le (by norm_num)
      have h20 : (1 : ℝ) / 20 ≤ cellDist (i - 250) (j - 250) / 20 :=
        (div_le_div_iff_of_pos_right (by norm_num)).mpr hD
      linarith
    calc (p.weight : ℝ) * max 0 (1 - cellDist (i - 250) (j - 250) / (20 : ℝ))
        ≤ (p.weight : ℝ) * (19 / 20) := mul_le_mul_of_nonneg_left hmaxle hwp
      _ = 19 / 20 * (p.weight : ℝ) := by ring
  rw [hcenter]
  calc heatmapCell 500 20 (xlim0 pts) (ylim0 pts) (x_spacing pts 500) (y_spacing pts 500)
        pts i j ≤ (19 / 20 : ℝ) * (pts.map fun p => ((p.weight : ℚ) : ℝ)).sum := hbound
    _ < (pts.map fun p => ((p.weight : ℚ) : ℝ)).sum := by linarith

/-- Claim C5 witness: the degenerate-bounds theorem applied to one concrete
point, extracting the epsilon margin substitution. -/
theorem degenerate_bounds_single_hot_cell_witness :
    lat_margin [ptC1w] = 1 / 1000 :=
  (degenerate_bounds_single_hot_cell [ptC1w] ptC1w (by simp)
    (by intro p hp
        rw [List.mem_singleton] at hp
        subst hp
        exact ⟨rfl, rfl⟩)
    (by intro p hp
        rw [List.mem_singleton] at hp
        subst hp
        norm_num [ptC1w])
    (by norm_num [ptC1w])).1

/-! ## Claim C3: total accumulated mass -/

theorem sq_le_sq_int {a b : ℤ} (hb : 0 ≤ b) (h : a ^ 2 ≤ b ^ 2) : -b ≤ a ∧ a ≤ b := by
  constructor
  · by_contra hc
    push_neg at hc
    nlinarith [sq_nonneg (a + b), sq_nonneg (a - b)]
  · by_contra hc
    push_neg at hc
    nlinarith [sq_nonneg (a + b), sq_nonneg (a - b)]

/-- An offset outside the kernel box in either coordinate is at Euclidean
distance greater than r. -/
theorem cellDist_gt_of_abs {dy dx : ℤ} {r : ℕ} (h : (r : ℤ) < |dx| ∨ (r : ℤ) < |dy|) :
    (r : ℝ) < cellDist dy dx := by
  rcases h with h | h
  · have hR : (r : ℝ) < |(dx : ℝ)| := by
      rw [← Int.cast_abs]
      exact_mod_cast h
    calc (r : ℝ) < |(dx : ℝ)| := hR
      _ = Real.sqrt ((dx : ℝ) ^ 2) := (Real.sqrt_sq_eq_abs _).symm
      _ ≤ cellDist dy dx := Real.sqrt_le_sqrt (by nlinarith [sq_nonneg ((dy : ℝ))])
  · have hR : (r : ℝ) < |(dy : ℝ)| := by
      rw [← Int.cast_abs]
      exact_mod_cast h
    calc (r : ℝ) < |(dy : ℝ)| := hR
      _ = Real.sqrt ((dy : ℝ) ^ 2) := (Real.sqrt_sq_eq_abs _).symm
      _ ≤ cellDist dy dx := Real.sqrt_le_sqrt (by nlinarith [sq_nonneg ((dx : ℝ))])

/-- An offset whose squared norm exceeds r^2 is at Euclidean distance greater
than r. -/
theorem cellDist_gt_of_sq {dy dx : ℤ} {r : ℕ} (h : (r : ℤ) ^ 2 < dx ^ 2 + dy ^ 2) :
    (r : ℝ) < cellDist dy dx := by
  have hZ : ((r : ℝ)) ^ 2 < (dx : ℝ) ^ 2 + (dy : ℝ) ^ 2 := by exact_mod_cast h
  calc (r : ℝ) = Real.sqrt ((r : ℝ) ^ 2) := (Real.sqrt_sq (by positivity)).symm
    _ < Real.sqrt ((dx : ℝ) ^ 2 + (dy : ℝ) ^ 2) := Real.sqrt_lt_sqrt (by positivity) hZ
    _ = cellDist dy dx := rfl

/-- If the Euclidean offset exceeds r, the falloff term is zero. -/
theorem falloff_zero_of_far {dy dx : ℤ} {r : ℕ} (hr : 0 < r)
    (h : (r : ℝ) < cellDist dy dx) :
    max 0 (1 - cellDist dy dx / (r : ℝ)) = 0 := by
  apply max_eq_left
  have hrR : (0 : ℝ) < (r : ℝ) := by exact_mod_cast hr
  have := (one_lt_div hrR).mpr h
  linarith

theorem gridTotal_list (N r : ℕ) (x0 y0 xsp ysp : ℚ) (pts : List Point) :
    gridTotal N r x0 y0 xsp ysp pts = (pts.map fun p => pointTotal N r x0 y0 xsp ysp p).sum := by
  induction pts with
  | nil => simp [gridTotal, heatmapCell]
  | cons p ps ih =>
    unfold gridTotal at ih ⊢
    simp only [heatmapCell_cons, Finset.sum_add_distrib, ih, List.map_cons, List.sum_cons]
    rfl

/-- Upper bound for one point's total: its weight times the number of cells the
kernel covers. -/
theorem pointTotal_le (N r : ℕ) (x0 y0 xsp ysp : ℚ) (p : Point)
    (hr : 0 < r) (hw : 0 ≤ p.weight) :
    pointTotal N r x0 y0 xsp ysp p ≤ (p.weight : ℝ) * (kernelArea r : ℝ) := by
  have hwR : (0 : ℝ) ≤ (p.weight : ℝ) := by exact_mod_cast hw
  have hrw : ∀ i ∈ Finset.Ico (0 : ℤ) (N : ℤ), ∀ j ∈ Finset.Ico (0 : ℤ) (N : ℤ),
      pointContrib N r x0 y0 xsp ysp p i j =
        if 0 ≤ projX x0 xsp p ∧ projX x0 xsp p < (N : ℤ) ∧
           0 ≤ projY y0 ysp p ∧ projY y0 ysp p < (N : ℤ) then
          (p.weight : ℝ) *
            max 0 (1 - cellDist (i - projY y0 ysp p) (j - projX x0 xsp p) / (r : ℝ))
        else 0 := by
    intro i hi j hj
    exact pointContrib_eq N r x0 y0 xsp ysp p i j hr (Finset.mem_Ico.mp hi).1
      (Finset.mem_Ico.mp hi).2 (Finset.mem_Ico.mp hj).1 (Finset.mem_Ico.mp hj).2
  unfold pointTotal
  rw [Finset.sum_congr rfl (fun i hi => Finset.sum_congr rfl (fun j hj => hrw i hi j hj))]
  by_cases hin : 0 ≤ projX x0 xsp p ∧ projX x0 xsp p < (N : ℤ) ∧
      0 ≤ projY y0 ysp p ∧ projY y0 ysp p < (N : ℤ)
  · simp only [if_pos hin]
    set xi := projX x0 xsp p
    set yi := projY y0 ysp p
    rw [← Finset.sum_product']
    set G := Finset.Ico (0 : ℤ) (N : ℤ) ×ˢ Finset.Ico (0 : ℤ) (N : ℤ) with hG
    set P : ℤ × ℤ → Prop := fun q => (q.2 - xi) ^ 2 + (q.1 - yi) ^ 2 ≤ (r : ℤ) ^ 2 with hP
    have hvanish : ∀ q ∈ G,
        (p.weight : ℝ) * max 0 (1 - cellDist (q.1 - yi) (q.2 - xi) / (r : ℝ)) ≠ 0 → P q := by
      intro q hq hne
      by_contra hnp
      apply hne
      have hlt : (r : ℤ) ^ 2 < (q.2 - xi) ^ 2 + (q.1 - yi) ^ 2 := by
        rw [hP] at hnp
        simpa [not_le] using hnp
      rw [falloff_zero_of_far hr (cellDist_gt_of_sq hlt), mul_zero]
    rw [← Finset.sum_filter_of_ne hvanish]
    have hcard : (G.filter P).card ≤ kernelArea r := by
      unfold kernelArea
      apply Finset.card_le_card_of_injOn (fun q => (q.2 - xi, q.1 - yi))
      · intro q hq
        rw [Finset.mem_filter] at hq
        obtain ⟨hqG, hqP⟩ := hq
        rw [hP] at hqP
        have hx := sq_le_sq_int (Int.natCast_nonneg r) (by nlinarith [sq_nonneg (q.1 - yi)] :
          (q.2 - xi) ^ 2 ≤ (r : ℤ) ^ 2)
        have hy := sq_le_sq_int (Int.natCast_nonneg r) (by nlinarith [sq_nonneg (q.2 - xi)] :
          (q.1 - yi) ^ 2 ≤ (r : ℤ) ^ 2)
        rw [Finset.mem_filter, Finset.mem_product, Finset.mem_Icc, Finset.mem_Icc]
        exact ⟨⟨⟨hx.1, hx.2⟩, ⟨hy.1, hy.2⟩⟩, hqP⟩
      · intro a ha b hb hab
        have h1 : a.2 - xi = b.2 - xi := congrArg Prod.fst hab
        have h2 : a.1 - yi = b.1 - yi := congrArg Prod.snd hab
        exact Prod.ext (by omega) (by omega)
    have hterm : ∀ q ∈ G.filter P,
        (p.weight : ℝ) * max 0 (1 - cellDist (q.1 - yi) (q.2 - xi) / (r : ℝ))
          ≤ (p.weight : ℝ) := by
      intro q hq
      have hmax : max 0 (1 - cellDist (q.1 - yi) (q.2 - xi) / (r : ℝ)) ≤ 1 := by
        apply max_le (by norm_num)
        have h0 : 0 ≤ cellDist (q.1 - yi) (q.2 - xi) / (r : ℝ) :=
          div_nonneg (cellDist_nonneg _ _) (by positivity)
        linarith
      calc (p.weight : ℝ) * max 0 (1 - cellDist (q.1 - yi) (q.2 - xi) / (r : ℝ))
          ≤ (p.weight : ℝ) * 1 := mul_le_mul_of_nonneg_left hmax hwR
        _ = (p.weight : ℝ) := mul_one _
    calc (∑ q in G.filter P,
            (p.weight : ℝ) * max 0 (1 - cellDist (q.1 - yi) (q.2 - xi) / (r : ℝ)))
        ≤ ∑ _q in G.filter P, (p.weight : ℝ) := Finset.sum_le_sum hterm
      _ = ((G.filter P).card : ℝ) * (p.weight : ℝ) := by
          rw [Finset.sum_const, nsmul_eq_mul]
      _ ≤ (kernelArea r : ℝ) * (p.weight : ℝ) := by
          apply mul_le_mul_of_nonneg_right _ hwR
          exact_mod_cast hcard
      _ = (p.weight : ℝ) * (kernelArea r : ℝ) := mul_comm _ _
  · simp only [if_neg hin, Finset.sum_const_zero]
    positivity

/-- Under full coverage (the point's radius-r kernel box lies inside the grid)
one point's total equals its weight times the kernel mass. -/
theorem pointTotal_eq_mass (N r : ℕ) (x0 y0 xsp ysp : ℚ) (p : Point) (hr : 0 < r)
    (hcov : (r : ℤ) ≤ projX x0 xsp p ∧ projX x0 xsp p + (r : ℤ) < (N : ℤ) ∧
            (r : ℤ) ≤ projY y0 ysp p ∧ projY y0 ysp p + (r : ℤ) < (N : ℤ)) :
    pointTotal N r x0 y0 xsp ysp p = (p.weight : ℝ) * kernelMass r := by
  obtain ⟨hcx1, hcx2, hcy1, hcy2⟩ := hcov
  have hin : 0 ≤ projX x0 xsp p ∧ projX x0 xsp p < (N : ℤ) ∧
      0 ≤ projY y0 ysp p ∧ projY y0 ysp p < (N : ℤ) := by omega
  have hrw : ∀ i ∈ Finset.Ico (0 : ℤ) (N : ℤ), ∀ j ∈ Finset.Ico (0 : ℤ) (N : ℤ),
      pointContrib N r x0 y0 xsp ysp p i j =
        (p.weight : ℝ) *
          max 0 (1 - cellDist (i - projY y0 ysp p) (j - projX x0 xsp p) / (r : ℝ)) := by
    intro i hi j hj
    rw [pointContrib_eq N r x0 y0 xsp ysp p i j hr (Finset.mem_Ico.mp hi).1
      (Finset.mem_Ico.mp hi).2 (Finset.mem_Ico.mp hj).1 (Finset.mem_Ico.mp hj).2,
      if_pos hin]
  unfold pointTotal
  rw [Finset.sum_congr rfl (fun i hi => Finset.sum_congr rfl (fun j hj => hrw i hi j hj))]
  set xi := projX x0 xsp p with hxi
  set yi := projY y0 ysp p with hyi
  rw [← Finset.sum_product']
  have himg : (Finset.Icc (-(r : ℤ)) (r : ℤ) ×ˢ Finset.Icc (-(r : ℤ)) (r : ℤ)).image
      (fun d : ℤ × ℤ => (yi + d.2, xi + d.1))
      ⊆ Finset.Ico (0 : ℤ) (N : ℤ) ×ˢ Finset.Ico (0 : ℤ) (N : ℤ) := by
    intro q hq
    rw [Finset.mem_image] at hq
    obtain ⟨d, hd, rfl⟩ := hq
    rw [Finset.mem_product, Finset.mem_Icc, Finset.mem_Icc] at hd
    rw [Finset.mem_product, Finset.mem_Ico, Finset.mem_Ico]
    omega
  have hzero : ∀ q ∈ Finset.Ico (0 : ℤ) (N : ℤ) ×ˢ Finset.Ico (0 : ℤ) (N : ℤ),
      q ∉ (Finset.Icc (-(r : ℤ)) (r : ℤ) ×ˢ Finset.Icc (-(r : ℤ)) (r : ℤ)).image
        (fun d : ℤ × ℤ => (yi + d.2, xi + d.1)) →
      (p.weight : ℝ) * max 0 (1 - cellDist (q.1 - yi) (q.2 - xi) / (r : ℝ)) = 0 := by
    intro q hqG hq
    have hoff : (r : ℤ) < |q.2 - xi| ∨ (r : ℤ) < |q.1 - yi| := by
      by_contra hc
      push_neg at hc
      obtain ⟨hc1, hc2⟩ := hc
      rw [abs_le] at hc1 hc2
      apply hq
      rw [Finset.mem_image]
      refine ⟨(q.2 - xi, q.1 - yi), ?_, ?_⟩
      · rw [Finset.mem_product, Finset.mem_Icc, Finset.mem_Icc]
        omega
      · have h1 : yi + (q.2 - xi, q.1 - yi).2 = q.1 := by omega
        have h2 : xi + (q.2 - xi, q.1 - yi).1 = q.2 := by omega
        rw [h1, h2]
    rw [falloff_zero_of_far hr (cellDist_gt_of_abs hoff), mul_zero]
  rw [← Finset.sum_subset himg hzero]
  rw [Finset.sum_image (fun a _ b _ hab => by
    have h1 : yi + a.2 = yi + b.2 := congrArg Prod.fst hab
    have h2 : xi + a.1 = xi + b.1 := congrArg Prod.snd hab
    exact Prod.ext (by omega) (by omega))]
  have hsimp : ∀ d : ℤ × ℤ,
      (p.weight : ℝ) * max 0 (1 - cellDist (yi + d.2 - yi) (xi + d.1 - xi) / (r : ℝ))
        = (p.weight : ℝ) * max 0 (1 - cellDist d.2 d.1 / (r : ℝ)) := by
    intro d
    have h1 : yi + d.2 - yi = d.2 := by omega
    have h2 : xi + d.1 - xi = d.1 := by omega
    rw [h1, h2]
  rw [Finset.sum_congr rfl (fun d _ => hsimp d), ← Finset.mul_sum]
  congr 1
  rw [kernelMass, ← Finset.sum_product']

/-- Claim C3 (amended): for nonnegative weights the accumulated total is at
most sum(weights) times the number of cells the kernel covers, and when every
point's kernel support lies fully inside the grid (no clipping losses) the
total equals sum(weights) times the kernel mass kernelMass r = sum over the
kernel support of (1 - d/r) - not sum(weights) itself, because the linear
falloff kernel is not normalized (its mass is 1 only for r = 1). -/
theorem accumulation_total_bound (N r : ℕ) (x0 y0 xsp ysp : ℚ) (pts : List Point)
    (hr : 0 < r) (hw : ∀ p ∈ pts, 0 ≤ p.weight) :
    gridTotal N r x0 y0 xsp ysp pts
      ≤ (((pts.map Point.weight).sum : ℚ) : ℝ) * (kernelArea r : ℝ) ∧
    ((∀ p ∈ pts, (r : ℤ) ≤ projX x0 xsp p ∧ projX x0 xsp p + (r : ℤ) < (N : ℤ) ∧
                 (r : ℤ) ≤ projY y0 ysp p ∧ projY y0 ysp p + (r : ℤ) < (N : ℤ)) →
      gridTotal N r x0 y0 xsp ysp pts
        = (((pts.map Point.weight).sum : ℚ) : ℝ) * kernelMass r) := by
  constructor
  · have h1 : (pts.map fun p => pointTotal N r x0 y0 xsp ysp p).sum
        ≤ (pts.map fun p => (kernelArea r : ℝ) * ((p.weight : ℚ) : ℝ)).sum := by
      apply listSumLe
      intro p hp
      calc pointTotal N r x0 y0 xsp ysp p
          ≤ (p.weight : ℝ) * (kernelArea r : ℝ) := pointTotal_le N r x0 y0 xsp ysp p hr (hw p hp)
        _ = (kernelArea r : ℝ) * (p.weight : ℝ) := mul_comm _ _
    rw [listSumMulLeft] at h1
    calc gridTotal N r x0 y0 xsp ysp pts
        = (pts.map fun p => pointTotal N r x0 y0 xsp ysp p).sum := gridTotal_list _ _ _ _ _ _ _
      _ ≤ (kernelArea r : ℝ) * (pts.map fun p => ((p.weight : ℚ) : ℝ)).sum := h1
      _ = (pts.map fun p => ((p.weight : ℚ) : ℝ)).sum * (kernelArea r : ℝ) := mul_comm _ _
      _ = (((pts.map Point.weight).sum : ℚ) : ℝ) * (kernelArea r : ℝ) := by
          rw [listSumCast]
  · intro hcov
    rw [gridTotal_list, ← listSumCast]
    have h1 : (pts.map fun p => pointTotal N r x0 y0 xsp ysp p)
        = (pts.map fun p => kernelMass r * ((p.weight : ℚ) : ℝ)) := by
      apply List.map_congr_left
      intro p hp
      rw [pointTotal_eq_mass N r x0 y0 xsp ysp p hr (hcov p hp), mul_comm]
    rw [h1, listSumMulLeft, mul_comm]

/-- Closed-form kernel mass for radius 2: the 25 offsets contribute
1 + 4*(1/2) + 4*(1 - sqrt 2 / 2) = 7 - 2*sqrt 2 (about 4.17). -/
theorem kernelMass_two : kernelMass 2 = 7 - 2 * Real.sqrt 2 := by
  have hv1 : Real.sqrt 1 = 1 := Real.sqrt_one
  have hv4 : Real.sqrt 4 = 2 := by
    rw [show (4 : ℝ) = 2 ^ 2 by norm_num]
    exact Real.sqrt_sq (by norm_num)
  have hs2 : Real.sqrt 2 ≤ 2 := by
    calc Real.sqrt 2 ≤ Real.sqrt 4 := Real.sqrt_le_sqrt (by norm_num)
      _ = 2 := hv4
  have h5 : (2 : ℝ) ≤ Real.sqrt 5 := by
    calc (2 : ℝ) = Real.sqrt 4 := hv4.symm
      _ ≤ Real.sqrt 5 := Real.sqrt_le_sqrt (by norm_num)
  have h8 : (2 : ℝ) ≤ Real.sqrt 8 := by
    calc (2 : ℝ) = Real.sqrt 4 := hv4.symm
      _ ≤ Real.sqrt 8 := Real.sqrt_le_sqrt (by norm_num)
  have m0 : max (0 : ℝ) (1 - Real.sqrt 0 / 2) = 1 := by
    rw [Real.sqrt_zero]; norm_num
  have m1 : max (0 : ℝ) (1 - Real.sqrt 1 / 2) = 1 / 2 := by
    rw [hv1]; norm_num
  have m2 : max (0 : ℝ) (1 - Real.sqrt 2 / 2) = 1 - Real.sqrt 2 / 2 := by
    apply max_eq_right; linarith
  have m4 : max (0 : ℝ) (1 - Real.sqrt 4 / 2) = 0 := by
    rw [hv4]; norm_num
  have m5 : max (0 : ℝ) (1 - Real.sqrt 5 / 2) = 0 := by
    apply max_eq_left; linarith
  have m8 : max (0 : ℝ) (1 - Real.sqrt 8 / 2) = 0 := by
    apply max_eq_left; linarith
  have hIcc : Finset.Icc (-((2 : ℕ) : ℤ)) ((2 : ℕ) : ℤ) = {-2, -1, 0, 1, 2} := by decide
  rw [kernelMass, hIcc]
  rw [show (((2 : ℕ)) : ℝ) = 2 by norm_num]
  norm_num [Finset.sum_insert, Finset.mem_insert, cellDist,
    show ((4 : ℝ) + 4) = 8 by norm_num, show ((4 : ℝ) + 1) = 5 by norm_num,
    show ((4 : ℝ) + 0) = 4 by norm_num, show ((1 : ℝ) + 4) = 5 by norm_num,
    show ((1 : ℝ) + 1) = 2 by norm_num, show ((1 : ℝ) + 0) = 1 by norm_num,
    show ((0 : ℝ) + 4) = 4 by norm_num, show ((0 : ℝ) + 1) = 1 by norm_num,
    show ((0 : ℝ) + 0) = 0 by norm_num, m0, m1, m2, m4, m5, m8]
  ring

/-- Claim C3 (counterexample): for the single unit-weight point at the center
of a 5×5 grid with radius 2 - weights nonnegative and no clipping losses, as
the claim requires - the accumulated total is 7 - 2*sqrt 2, which is about
4.17 and not sum(weights) = 1: the unnormalized kernel spreads more than each
point's weight, so conservation fails. -/
theorem accumulated_total_not_weight_sum :
    (∀ p ∈ [ptC3], 0 ≤ p.weight) ∧
    (∀ p ∈ [ptC3], (2 : ℤ) ≤ projX 0 1 p ∧ projX 0 1 p + (2 : ℤ) < ((5 : ℕ) : ℤ) ∧
        (2 : ℤ) ≤ projY 0 1 p ∧ projY 0 1 p + (2 : ℤ) < ((5 : ℕ) : ℤ)) ∧
    ([ptC3].map Point.weight).sum = 1 ∧
    gridTotal 5 2 0 0 1 1 [ptC3] ≠ (1 : ℝ) := by
  have hpx : projX 0 1 ptC3 = 2 := by norm_num [projX, pyInt, ptC3]
  have hpy : projY 0 1 ptC3 = 2 := by norm_num [projY, pyInt, ptC3]
  refine ⟨?_, ?_, ?_, ?_⟩
  · intro p hp
    rw [List.mem_singleton] at hp
    subst hp
    norm_num [ptC3]
  · intro p hp
    rw [List.mem_singleton] at hp
    subst hp
    rw [hpx, hpy]
    norm_num
  · norm_num [ptC3]
  · have hg : gridTotal 5 2 0 0 1 1 [ptC3] = kernelMass 2 := by
      rw [gridTotal_list]
      simp only [List.map_cons, List.map_nil, List.sum_cons, List.sum_nil, add_zero]
      rw [pointTotal_eq_mass 5 2 0 0 1 1 ptC3 (by norm_num)
        (by rw [hpx, hpy]; norm_num)]
      norm_num [ptC3]
    rw [hg, kernelMass_two]
    intro h
    have h2 : Real.sqrt 2 = 3 := by linarith
    have h3 := Real.sq_sqrt (show (0 : ℝ) ≤ 2 by norm_num)
    rw [h2] at h3
    norm_num at h3

/-- Claim C3 witness: the amended bound applied to the concrete full-coverage
configuration. -/
theorem accumulation_total_bound_witness :
    gridTotal 5 2 0 0 1 1 [ptC3]
      ≤ ((([ptC3].map Point.weight).sum : ℚ) : ℝ) * (kernelArea 2 : ℝ) :=
  (accumulation_total_bound 5 2 0 0 1 1 [ptC3] (by norm_num)
    (by intro p hp
        rw [List.mem_singleton] at hp
        subst hp
        norm_num [ptC3])).1

/-! ## Claim C2: normalizer and masker -/

theorem le_gridMax (n : ℕ) (g : Fin (n + 1) → Fin (n + 1) → ℝ) (i j : Fin (n + 1)) :
    g i j ≤ gridMax n g := by
  unfold gridMax
  exact Finset.le_sup' (fun q : Fin (n + 1) × Fin (n + 1) => g q.1 q.2)
    (Finset.mem_univ (i, j))

theorem gridMax_le (n : ℕ) (g : Fin (n + 1) → Fin (n + 1) → ℝ) (a : ℝ)
    (h : ∀ i j, g i j ≤ a) : gridMax n g ≤ a := by
  unfold gridMax
  exact Finset.sup'_le _ _ (fun b _ => h b.1 b.2)

theorem exists_gridMax (n : ℕ) (g : Fin (n + 1) → Fin (n + 1) → ℝ) :
    ∃ i j, gridMax n g = g i j := by
  unfold gridMax
  obtain ⟨q, hq, hqmax⟩ := Finset.exists_mem_eq_sup' Finset.univ_nonempty
    (fun q : Fin (n + 1) × Fin (n + 1) => g q.1 q.2)
  exact ⟨q.1, q.2, hqmax⟩

/-- Claim C2: if the smoothed grid's maximum is positive, every cell is
divided by it, the resulting maximum is exactly 1, and exactly the cells whose
normalized value is below the 0.05 threshold are masked while their numeric
value is retained (the mask is a separate boolean grid over the same data); if
the maximum is 0 the grid is returned unchanged - all cells are 0, the grid
being nonnegative - and every cell is masked. -/
theorem normalizer_masker_spec (n : ℕ) (g : Fin (n + 1) → Fin (n + 1) → ℝ) :
    (0 < gridMax n g →
      (∀ i j, normalizeSmoothed n g i j = g i j / gridMax n g) ∧
      gridMax n (normalizeSmoothed n g) = 1 ∧
      (∀ i j, maskedCells n g i j ↔ normalizeSmoothed n g i j < 5 / 100)) ∧
    (gridMax n g = 0 → (∀ i j, 0 ≤ g i j) →
      (normalizeSmoothed n g = g ∧ ∀ i j, g i j = 0 ∧ maskedCells n g i j)) := by
  constructor
  · intro hpos
    have hnorm : ∀ i j, normalizeSmoothed n g i j = g i j / gridMax n g := by
      intro i j
      rw [normalizeSmoothed, if_pos hpos]
    refine ⟨hnorm, ?_, fun i j => Iff.rfl⟩
    obtain ⟨a, b, hab⟩ := exists_gridMax n g
    apply le_antisymm
    · apply gridMax_le
      intro i j
      rw [hnorm i j]
      exact (div_le_one hpos).mpr (le_gridMax n g i j)
    · have h1 : normalizeSmoothed n g a b = 1 := by
        rw [hnorm a b, ← hab, div_self (ne_of_gt hpos)]
      calc (1 : ℝ) = normalizeSmoothed n g a b := h1.symm
        _ ≤ _ := le_gridMax n (normalizeSmoothed n g) a b
  · intro hzero hnn
    have hnotpos : ¬ 0 < gridMax n g := by
      rw [hzero]
      exact lt_irrefl 0
    have hnorm : normalizeSmoothed n g = g := by
      rw [normalizeSmoothed, if_neg hnotpos]
    refine ⟨hnorm, ?_⟩
    intro i j
    have hle : g i j ≤ 0 := by
      have h1 : g i j ≤ gridMax n g := le_gridMax n g i j
      rw [hzero] at h1
      exact h1
    have heq : g i j = 0 := le_antisymm hle (hnn i j)
    refine ⟨heq, ?_⟩
    show normalizeSmoothed n g i j < 5 / 100
    rw [hnorm, heq]
    norm_num

/-- Claim C2 witness: the positive branch on the constant-2 1×1 grid. -/
theorem normalizer_masker_spec_witness :
    normalizeSmoothed 0 (fun _ _ => 2) 0 0 = (2 : ℝ) / gridMax 0 (fun _ _ => 2) := by
  have hpos : 0 < gridMax 0 (fun _ _ => (2 : ℝ)) := by
    calc (0 : ℝ) < 2 := by norm_num
      _ ≤ gridMax 0 (fun _ _ => (2 : ℝ)) := le_gridMax 0 (fun _ _ => (2 : ℝ)) 0 0
  exact ((normalizer_masker_spec 0 (fun _ _ => 2)).1 hpos).1 0 0

/-! ## Claim C7: diversity indices (spec-modelled) -/

/-- Claim C7: with proportions p_i = count_i / total (the definitions are the
spec's own formulas, natural log for Shannon), the Shannon index of a single
category is exactly 0 and the Simpson index of k equally abundant categories
is 1 - 1/k (hence 0.75 for k = 4, checked concretely in the witness). -/
theorem diversity_indices (lbl : String) (c k m : ℕ)
    (hc : 0 < c) (hk : 0 < k) (hm : 0 < m) :
    shannonIndex [(lbl, c)] = 0 ∧
    simpsonIndex (equalCounts k m) = 1 - 1 / (k : ℝ) := by
  constructor
  · unfold shannonIndex
    simp only [List.map_cons, List.map_nil, List.sum_cons, List.sum_nil, add_zero]
    have hcR : ((c : ℕ) : ℝ) ≠ 0 := Nat.cast_ne_zero.mpr hc.ne'
    rw [div_self hcR, Real.log_one, mul_zero, neg_zero]
  · unfold simpsonIndex equalCounts
    have hkR : ((k : ℕ) : ℝ) ≠ 0 := Nat.cast_ne_zero.mpr hk.ne'
    have hmR : ((m : ℕ) : ℝ) ≠ 0 := Nat.cast_ne_zero.mpr hm.ne'
    have htot : ((((List.range k).map fun i => (toString i, m)).map Prod.snd).sum : ℕ)
        = k * m := by
      rw [List.map_map]
      have hconst : (Prod.snd ∘ fun i : ℕ => (toString i, m)) = fun _ : ℕ => m := rfl
      rw [hconst, List.map_const', List.sum_replicate, List.length_range, smul_eq_mul]
    rw [htot, List.map_map]
    have hterm : ((fun c : String × ℕ =>
          ((c.2 : ℝ) / (((k * m : ℕ) : ℕ) : ℝ)) ^ 2) ∘ fun i : ℕ => (toString i, m))
        = fun _ : ℕ => ((m : ℝ) / ((k * m : ℕ) : ℝ)) ^ 2 := rfl
    rw [hterm, List.map_const', List.sum_replicate, List.length_range, nsmul_eq_mul]
    have hp : ((m : ℝ) / ((k * m : ℕ) : ℝ)) = 1 / (k : ℝ) := by
      push_cast
      field_simp
      ring
    rw [hp]
    have hk2 : (k : ℝ) ≠ 0 := hkR
    field_simp
    ring

/-- Claim C7 witness: single-category Shannon is 0 and four equal categories
give Simpson 0.75. -/
theorem diversity_indices_witness :
    shannonIndex [(nameA, 2)] = 0 ∧ simpsonIndex (equalCounts 4 1) = 3 / 4 := by
  have h := diversity_indices nameA 2 4 1 (by norm_num) (by norm_num) (by norm_num)
  refine ⟨h.1, ?_⟩
  rw [h.2]
  norm_num

/-! ## Claim C8: discrete palette adjustment -/

/-- Claim C8 (counterexample): the brightness/saturation adjustment is not
idempotent: applied to opaque white with the code's default factors (0.8, 0.6)
it gives the 0.8 grey, and applying it again darkens further to 0.64 grey. -/
theorem adjust_not_idempotent :
    adjust_color_brightness_saturation
        (adjust_color_brightness_saturation whiteRGBA (4 / 5) (3 / 5)) (4 / 5) (3 / 5)
      ≠ adjust_color_brightness_saturation whiteRGBA (4 / 5) (3 / 5) := by
  have h1 : adjust_color_brightness_saturation whiteRGBA (4 / 5) (3 / 5)
      = (4 / 5, 4 / 5, 4 / 5, 1) := by
    norm_num [adjust_color_brightness_saturation, rgb_to_hsv, hsv_to_rgb, npClip,
      whiteRGBA, pyInt, min_def, max_def]
  have h2 : adjust_color_brightness_saturation ((4 : ℚ) / 5, (4 : ℚ) / 5, (4 : ℚ) / 5, (1 : ℚ))
      (4 / 5) (3 / 5) = (16 / 25, 16 / 25, 16 / 25, 1) := by
    norm_num [adjust_color_brightness_saturation, rgb_to_hsv, hsv_to_rgb, npClip,
      pyInt, min_def, max_def]
  rw [h1, h2]
  intro hEq
  exact absurd (congrArg Prod.fst hEq) (by norm_num)

/-- Claim C8 (amended): the adjustment always returns the input's alpha
channel unchanged (the idempotence half of the claim is false - a second
application multiplies the V channel by the brightness factor again). -/
theorem adjust_preserves_alpha (rgba : ℚ × ℚ × ℚ × ℚ) (bf sf : ℚ) :
    (adjust_color_brightness_saturation rgba bf sf).2.2.2 = rgba.2.2.2 := rfl

/-! ## Claim C9: shared output paths -/

/-- Claim C9 (counterexample): analyze_distribution writes its result to the
process-wide TEMP_DIR under a fixed file name: two different requests map to
the very same output path, so concurrent requests can overwrite each other's
files, contradicting the claim that this can never happen. -/
theorem shared_output_path_collision :
    distribution_output_path tmpBase [ptC1w] = distribution_output_path tmpBase [] ∧
    ([ptC1w] : List Point) ≠ [] := by
  exact ⟨rfl, by simp⟩

/-- Claim C9 (amended): every PNG-producing endpoint writes its output to a
fixed filename under the one process-wide temporary directory; the path
depends only on the endpoint, never on the request data. -/
theorem output_paths_request_independent (tempDir : String) (d1 d2 : List Point) :
    distribution_output_path tempDir d1 = distribution_output_path tempDir d2 ∧
    heatmap_static_output_path tempDir d1 = heatmap_static_output_path tempDir d2 ∧
    diversity_static_output_path tempDir d1 = diversity_static_output_path tempDir d2 :=
  ⟨rfl, rfl, rfl⟩

/-! ## Claim C10: category color assignment order -/

/-- Claim C10 (counterexample): on the dataset whose first-seen order is B
then A, the interactive endpoint's colormap (unique() order) gives category A
the second Tableau color while the static endpoint's colormap (sorted order)
gives it the first: the two assignments are not identical. -/
theorem colormap_orders_differ :
    create_colormap (uniqueFirstSeen dataBA) nameA
      ≠ create_colormap (sortedUniqueNames dataBA) nameA := by
  decide

/-- Claim C10 (amended): the two colormaps coincide exactly on datasets whose
first-seen unique order is already sorted; in general the same category can
receive different colors from the two endpoints. -/
theorem colormap_orders_agree_when_sorted (data : List String) (v : String)
    (h : uniqueFirstSeen data = sortedUniqueNames data) :
    create_colormap (uniqueFirstSeen data) v
      = create_colormap (sortedUniqueNames data) v := by
  rw [h]

/-- Claim C10 witness: on an already-sorted dataset the two assignments
agree. -/
theorem colormap_orders_agree_when_sorted_witness :
    create_colormap (uniqueFirstSeen dataAB) nameA
      = create_colormap (sortedUniqueNames dataAB) nameA :=
  colormap_orders_agree_when_sorted dataAB nameA (by decide)

/-! ## Claim C6: the smoothing filter -/

theorem gaussKernel_neg (sigma : ℚ) (t : ℤ) :
    gaussKernel sigma (-t) = gaussKernel sigma t := by
  unfold gaussKernel
  norm_num

/-- The Gaussian weight strictly decreases in the squared offset. -/
theorem gaussKernel_strict (sigma : ℚ) (a b : ℤ) (hs : (sigma : ℝ) ≠ 0)
    (h : a ^ 2 < b ^ 2) : gaussKernel sigma b < gaussKernel sigma a := by
  unfold gaussKernel
  apply Real.exp_lt_exp.mpr
  have hden : (0 : ℝ) < 2 * (sigma : ℝ) ^ 2 := by positivity
  have hab : ((a : ℝ)) ^ 2 < ((b : ℝ)) ^ 2 := by exact_mod_cast h
  exact (div_lt_div_iff_of_pos_right hden).mpr (by linarith)

theorem gaussZ_pos (sigma : ℚ) (R : ℕ) : 0 < gaussZ sigma R := by
  unfold gaussZ
  apply Finset.sum_pos (fun t _ => Real.exp_pos _)
  exact ⟨0, Finset.mem_Icc.mpr (by constructor <;> omega)⟩

/-- On an axis of length 1 every index reflects to 0. -/
theorem reflectIndex_one (k : ℤ) : reflectIndex 1 k = 0 := by
  simp only [reflectIndex]
  split_ifs with h <;> omega

/-- On an axis of length 1 every index clamps to 0. -/
theorem nearestIndex_one (k : ℤ) : nearestIndex 1 k = 0 := by
  unfold nearestIndex
  omega

theorem sum_Icc_eq_range (R : ℕ) (f : ℤ → ℝ) :
    ∑ t in Finset.Icc (-(R : ℤ)) (R : ℤ), f t
      = ∑ k in Finset.range (2 * R + 1), f ((k : ℤ) - R) := by
  refine Finset.sum_nbij' (fun t : ℤ => (t + (R : ℤ)).toNat)
    (fun k : ℕ => (k : ℤ) - (R : ℤ)) ?_ ?_ ?_ ?_ ?_
  · intro a ha
    rw [Finset.mem_Icc] at ha
    rw [Finset.mem_range]
    simp only []
    omega
  · intro b hb
    rw [Finset.mem_range] at hb
    rw [Finset.mem_Icc]
    simp only []
    omega
  · intro a ha
    rw [Finset.mem_Icc] at ha
    simp only []
    omega
  · intro b hb
    rw [Finset.mem_range] at hb
    simp only []
    omega
  · intro a ha
    rw [Finset.mem_Icc] at ha
    simp only []
    congr 1
    omega

/-- The two 1D passes collapse to a single double sum with a product kernel,
whatever the boundary index map. -/
theorem separableBlur_eq (sigma : ℚ) (R rows cols : ℕ) (index : ℕ → ℤ → ℤ)
    (g : ℤ → ℤ → ℝ) (i j : ℤ) :
    separableBlur sigma R rows cols index g i j
      = (∑ s in Finset.Icc (-(R : ℤ)) (R : ℤ), ∑ t in Finset.Icc (-(R : ℤ)) (R : ℤ),
          gaussKernel sigma s * gaussKernel sigma t *
            g (index rows (i + s)) (index cols (j + t))) / gaussZ sigma R ^ 2 := by
  unfold separableBlur filterAxis1 filterAxis0
  simp only [← mul_div_assoc]
  rw [← Finset.sum_div, div_div, ← sq]
  congr 1
  simp only [Finset.mul_sum]
  rw [Finset.sum_comm]
  apply Finset.sum_congr rfl
  intro s hs
  apply Finset.sum_congr rfl
  intro t ht
  ring

/-- On the length-2 axis with data [1, 0], the Gaussian-weighted sum of the
clamp-to-edge extension strictly exceeds that of the reflect extension: the
surplus telescopes to sums of strictly ordered Gaussian weights. -/
theorem nearest_sum_gt_reflect_sum :
    (∑ t in Finset.Icc (-((32 : ℕ) : ℤ)) ((32 : ℕ) : ℤ),
        gaussKernel 8 t * (if reflectIndex 2 t = 0 then (1 : ℝ) else 0))
      < ∑ t in Finset.Icc (-((32 : ℕ) : ℤ)) ((32 : ℕ) : ℤ),
          gaussKernel 8 t * (if nearestIndex 2 t = 0 then (1 : ℝ) else 0) := by
  rw [sum_Icc_eq_range 32 _, sum_Icc_eq_range 32 _]
  simp only [Finset.sum_range_succ, Finset.sum_range_zero]
  norm_num [reflectIndex, nearestIndex, min_def, max_def]
  simp only [gaussKernel_neg]
  have e1 : gaussKernel 8 4 < gaussKernel 8 2 := gaussKernel_strict 8 2 4 (by norm_num) (by norm_num)
  have e2 : gaussKernel 8 8 < gaussKernel 8 6 := gaussKernel_strict 8 6 8 (by norm_num) (by norm_num)
  have e3 : gaussKernel 8 12 < gaussKernel 8 10 := gaussKernel_strict 8 10 12 (by norm_num) (by norm_num)
  have e4 : gaussKernel 8 16 < gaussKernel 8 14 := gaussKernel_strict 8 14 16 (by norm_num) (by norm_num)
  have e5 : gaussKernel 8 20 < gaussKernel 8 18 := gaussKernel_strict 8 18 20 (by norm_num) (by norm_num)
  have e6 : gaussKernel 8 24 < gaussKernel 8 22 := gaussKernel_strict 8 22 24 (by norm_num) (by norm_num)
  have e7 : gaussKernel 8 28 < gaussKernel 8 26 := gaussKernel_strict 8 26 28 (by norm_num) (by norm_num)
  have e8 : gaussKernel 8 32 < gaussKernel 8 30 := gaussKernel_strict 8 30 32 (by norm_num) (by norm_num)
  linarith

/-- Claim C6 (counterexample): the code's blur (scipy default boundary mode
'reflect') and the spec's clamp-to-edge blur disagree on the 1×2 grid [1, 0]
at cell (0, 0): mirror reflection reads the far cell where clamping repeats
the edge cell, so the smoothing filter does NOT handle boundaries by
clamp-to-edge. -/
theorem blur_boundary_not_clamp :
    specClampBlur 1 2 gC6 0 0 ≠ gaussian_filter 1 2 gC6 0 0 := by
  have hZ : 0 < gaussZ 8 32 := gaussZ_pos 8 32
  have hN : specClampBlur 1 2 gC6 0 0
      = (gaussZ 8 32 * ∑ t in Finset.Icc (-((32 : ℕ) : ℤ)) ((32 : ℕ) : ℤ),
          gaussKernel 8 t * (if nearestIndex 2 t = 0 then (1 : ℝ) else 0))
            / gaussZ 8 32 ^ 2 := by
    rw [specClampBlur, separableBlur_eq]
    congr 1
    rw [gaussZ, Finset.sum_mul_sum]
    apply Finset.sum_congr rfl
    intro s hs
    apply Finset.sum_congr rfl
    intro t ht
    rw [nearestIndex_one, zero_add]
    unfold gC6
    simp only [eq_self_iff_true, true_and]
    ring
  have hR : gaussian_filter 1 2 gC6 0 0
      = (gaussZ 8 32 * ∑ t in Finset.Icc (-((32 : ℕ) : ℤ)) ((32 : ℕ) : ℤ),
          gaussKernel 8 t * (if reflectIndex 2 t = 0 then (1 : ℝ) else 0))
            / gaussZ 8 32 ^ 2 := by
    rw [gaussian_filter, separableBlur_eq]
    congr 1
    rw [gaussZ, Finset.sum_mul_sum]
    apply Finset.sum_congr rfl
    intro s hs
    apply Finset.sum_congr rfl
    intro t ht
    rw [reflectIndex_one, zero_add]
    unfold gC6
    simp only [eq_self_iff_true, true_and]
    ring
  rw [hN, hR, sq]
  rw [mul_div_mul_left _ _ (ne_of_gt hZ), mul_div_mul_left _ _ (ne_of_gt hZ)]
  apply ne_of_gt
  exact (div_lt_div_iff_of_pos_right hZ).mpr nearest_sum_gt_reflect_sum

/-- Claim C6 (amended): the smoothing filter is the separable Gaussian blur
with the fixed standard deviation sigma = 8 (truncated at radius 32) - one 1D
pass per axis collapsing to a product kernel over the same rows×cols index
range - and its boundary handling is scipy's default half-sample mirror
reflection, not clamp-to-edge (and not wrap or zero-padding either). -/
theorem gaussian_filter_separable_reflect (rows cols : ℕ) (g : ℤ → ℤ → ℝ) (i j : ℤ) :
    gaussian_filter rows cols g i j
      = (∑ s in Finset.Icc (-((32 : ℕ) : ℤ)) ((32 : ℕ) : ℤ),
          ∑ t in Finset.Icc (-((32 : ℕ) : ℤ)) ((32 : ℕ) : ℤ),
          gaussKernel 8 s * gaussKernel 8 t *
            g (reflectIndex rows (i + s)) (reflectIndex cols (j + t))) / gaussZ 8 32 ^ 2 :=
  separableBlur_eq 8 32 rows cols reflectIndex g i j

end ArborTag
